import Mathlib

/-!
Verification of the dead-code elimination pass in `src/passes/DeadCode.cpp`
of the USTC-Compiler-Engineering-2025 repository.

The pass operates on a LightIR-style SSA intermediate representation:
a `Module` owns `Function`s; a function owns `BasicBlock`s (one designated
entry block); a block owns a sequence of `Instruction`s; each instruction
has a kind and an operand list whose entries may reference other
instructions, blocks (branch targets), constants, globals or arguments.
We embed the IR shallowly: instructions and blocks are identified by
natural-number ids (modelling the C++ object pointers), and the derived
predecessor relation of a block is computed from branch-target operands.

The pass functions `is_critical`, `clear_basic_blocks`, `mark`, `sweep`,
`sweep_globally` and the fixed-point driver `run` are translated directly
from the source.  Recursions that the C++ runs as loops (the mark work
list, the outer do-while) are given fuel so that every definition reduces
by evaluation; adequacy of the chosen fuel is proved below.
-/

namespace DeadCode

/-- Instruction kinds of the LightIR instruction set.  The first seven are
the ones the pass classifies as critical; `add`, `sub`, `mul`, `sdiv`,
`icmp`, `zext` and `gep` stand for the pure value-producing kinds. -/
inductive InstrKind where
  | store | ret | call | br | phi | alloca | load
  | add | sub | mul | sdiv | icmp | zext | gep
  deriving DecidableEq, Repr, Inhabited

/-- An operand slot of an instruction: a reference to another instruction
(by id), a branch-target block (by id), a constant, a global, or a
function argument.  The `dynamic_cast<Instruction *>` in `mark` succeeds
exactly on the `instrRef` variant. -/
inductive Operand where
  | instrRef (id : Nat)
  | blockRef (id : Nat)
  | constVal (n : Int)
  | globalRef (name : String)
  | argRef (idx : Nat)
  deriving DecidableEq, Repr, Inhabited

structure Instruction where
  id : Nat
  kind : InstrKind
  operands : List Operand
  deriving DecidableEq, Repr, Inhabited

structure BasicBlock where
  id : Nat
  instrs : List Instruction
  deriving DecidableEq, Repr, Inhabited

structure Func where
  name : String
  entry : Nat
  blocks : List BasicBlock
  useList : List Nat
  deriving DecidableEq, Repr, Inhabited

structure GlobalVariable where
  name : String
  useList : List Nat
  deriving DecidableEq, Repr, Inhabited

structure Module where
  functions : List Func
  globals : List GlobalVariable
  deriving DecidableEq, Repr, Inhabited

/-- The instruction-kind accessors of LightIR queried by the pass. -/
def Instruction.is_store (i : Instruction) : Bool := i.kind == .store

def Instruction.is_ret (i : Instruction) : Bool := i.kind == .ret

def Instruction.is_call (i : Instruction) : Bool := i.kind == .call

def Instruction.is_br (i : Instruction) : Bool := i.kind == .br

def Instruction.is_phi (i : Instruction) : Bool := i.kind == .phi

def Instruction.is_alloca (i : Instruction) : Bool := i.kind == .alloca

def Instruction.is_load (i : Instruction) : Bool := i.kind == .load

/-- `DeadCode::is_critical`: store, return, call, branch, phi, alloca and
load instructions are critical; everything else is not. -/
def is_critical (ins : Instruction) : Bool :=
  if ins.is_store then true
  else if ins.is_ret then true
  else if ins.is_call then true
  else if ins.is_br then true
  else if ins.is_phi then true
  else if ins.is_alloca then true
  else if ins.is_load then true
  else false

/-- The instructions of a function in program order (block order, then
in-block order), as iterated by `mark` and `sweep`. -/
def funcInstrs (f : Func) : List Instruction :=
  (f.blocks.map BasicBlock.instrs).flatten

/-- The ids of the operands of an instruction that are themselves
instructions (the operands for which the `dynamic_cast` succeeds). -/
def instrOperandIds (i : Instruction) : List Nat :=
  i.operands.filterMap fun o =>
    match o with
    | .instrRef id => some id
    | _ => none

/-- The derived predecessor set of a block: the ids of the blocks holding
an instruction with a branch-target operand naming `bb` (LightIR's
`get_pre_basic_blocks`, maintained from the branch instructions). -/
def getPreBasicBlocks (f : Func) (bb : BasicBlock) : List Nat :=
  (f.blocks.filter fun p =>
    p.instrs.any fun i =>
      i.operands.any fun o => o == Operand.blockRef bb.id).map BasicBlock.id

/-- The test of `DeadCode::clear_basic_blocks`: a block qualifies for
erasure when its predecessor set is empty and it is not the entry block. -/
def bbDead (f : Func) (bb : BasicBlock) : Bool :=
  (getPreBasicBlocks f bb).isEmpty && bb.id != f.entry

/-- `DeadCode::clear_basic_blocks`: collect every block with an empty
predecessor set other than the entry block, then erase the collected
blocks from the function; returns whether any block was erased. -/
def clear_basic_blocks (f : Func) : Func × Bool :=
  let to_erase := f.blocks.filter (bbDead f)
  ({ f with blocks := f.blocks.filter fun bb => !(bbDead f bb) },
   !to_erase.isEmpty)

/-- The pass-local state of the mark phase: the liveness map (the set of
ids mapped to true) and the FIFO work list. -/
structure MarkState where
  marked : List Nat
  work_list : List Nat
  deriving DecidableEq, Repr, Inhabited

/-- `DeadCode::mark(Instruction *)`: if the instruction is not yet marked,
mark it and push it on the work list. -/
def markIns (s : MarkState) (id : Nat) : MarkState :=
  if id ∈ s.marked then s
  else { marked := id :: s.marked, work_list := s.work_list ++ [id] }

/-- The inner loop of the work-list drain: mark every not-yet-marked
instruction operand of the dequeued instruction and enqueue it. -/
def processOperands (s : MarkState) (ops : List Nat) : MarkState :=
  ops.foldl markIns s

/-- Look an instruction up by id among the instructions of a function
(the pointer dereference of the C++ model). -/
def findInstr (f : Func) (id : Nat) : Option Instruction :=
  (funcInstrs f).find? fun i => i.id == id

/-- The operand ids propagated when instruction `id` is dequeued: the
instruction-valued operands of the instruction the id refers to. -/
def drainOps (f : Func) (id : Nat) : List Nat :=
  match findInstr f id with
  | some i => instrOperandIds i
  | none => []

/-- The work-list drain loop of `DeadCode::mark(Function *)`, with fuel.
Each step dequeues one instruction and propagates the mark to its
instruction-valued operands. -/
def drainFuel (f : Func) : Nat → MarkState → MarkState
  | 0, s => s
  | fuel + 1, s =>
    match s.work_list with
    | [] => s
    | id :: rest =>
      drainFuel f fuel
        (processOperands { s with work_list := rest } (drainOps f id))

/-- A finite universe of ids for the mark phase: ids of the function's
instructions together with every instruction-operand id they mention.
Every id the drain ever marks lies in this list. -/
def markUniverse (f : Func) : List Nat :=
  (((funcInstrs f).map Instruction.id) ++
    ((funcInstrs f).map instrOperandIds).flatten).dedup

/-- Termination measure of the drain: twice the unmarked part of the
universe plus the work-list length; each drain step strictly decreases it. -/
def markMeasure (f : Func) (s : MarkState) : Nat :=
  2 * ((markUniverse f).filter fun id => !(s.marked.contains id)).length +
    s.work_list.length

/-- The first phase of `DeadCode::mark(Function *)`: after resetting the
state, mark and enqueue every critical instruction in program order. -/
def markInit (f : Func) : MarkState :=
  ((funcInstrs f).filter is_critical).foldl
    (fun s i => markIns s i.id) { marked := [], work_list := [] }

/-- `DeadCode::mark(Function *)`: reset the state, mark and enqueue every
critical instruction in program order, then drain the work list (supplied
with provably sufficient fuel). -/
def markFunc (f : Func) : MarkState :=
  drainFuel f (markMeasure f (markInit f) + 1) (markInit f)

/-- The saturation invariant of the drain: every marked id that is no
longer on the work list already had the operand ids of its instruction
propagated. -/
def Sat (f : Func) (s : MarkState) : Prop :=
  ∀ id, id ∈ s.marked → id ∉ s.work_list →
    ∀ i, i ∈ funcInstrs f → i.id = id →
      ∀ oid, oid ∈ instrOperandIds i → oid ∈ s.marked

/-- The deletion test of `DeadCode::sweep`: unmarked and non-critical. -/
def sweepDel (marked : List Nat) (i : Instruction) : Bool :=
  !(marked.contains i.id) && !(is_critical i)

/-- The effect of the sweep erasures on one block: every collected
instruction is erased from its parent block. -/
def sweepKeep (marked : List Nat) (bb : BasicBlock) : BasicBlock :=
  { bb with instrs := bb.instrs.filter fun i => !(sweepDel marked i) }

/-- `DeadCode::sweep`: collect every unmarked non-critical instruction of
the function, then erase each from its parent block, counting the
erasures; returns whether any instruction was erased and the count added
to `ins_count`. -/
def sweep (marked : List Nat) (f : Func) : Func × Bool × Nat :=
  let wait_del := (funcInstrs f).filter (sweepDel marked)
  ({ f with blocks := f.blocks.map (sweepKeep marked) },
   !wait_del.isEmpty, wait_del.length)

/-- One function's share of one outer iteration of `DeadCode::run`:
prune unreachable blocks, mark, sweep; the booleans are OR-ed into the
driver's `changed` flag and the count into `ins_count`. -/
def processFunction (f : Func) : Func × Bool × Nat :=
  let pr := clear_basic_blocks f
  let m := markFunc pr.1
  let sw := sweep m.marked pr.1
  (sw.1, pr.2 || sw.2.1, sw.2.2)

/-- One outer iteration of the driver: process every function of the
module, accumulating the changed flag and the erased-instruction count. -/
def runIter (m : Module) : Module × Bool × Nat :=
  let rs := m.functions.map processFunction
  ({ m with functions := rs.map fun r => r.1 },
   rs.any fun r => r.2.1,
   (rs.map fun r => r.2.2).sum)

/-- Total number of instructions in a function. -/
def instrCountF (f : Func) : Nat := (funcInstrs f).length

/-- Number of basic blocks in a function. -/
def blockCountF (f : Func) : Nat := f.blocks.length

/-- Instructions plus blocks of a function. -/
def funcSize (f : Func) : Nat := instrCountF f + blockCountF f

/-- Total size of the module: instructions plus blocks over all
functions; the fuel bound of the outer do-while loop. -/
def totalSize (m : Module) : Nat := (m.functions.map funcSize).sum

/-- Total number of instructions in a module. -/
def instrCountM (m : Module) : Nat := (m.functions.map instrCountF).sum

/-- The do-while loop of `DeadCode::run`, with fuel: repeat `runIter`
while it reports a change, accumulating the erased-instruction count. -/
def runLoopFuel : Nat → Module → Module × Nat
  | 0, m => (m, 0)
  | fuel + 1, m =>
    let it := runIter m
    if it.2.1 then
      let rec_ := runLoopFuel fuel it.1
      (rec_.1, it.2.2 + rec_.2)
    else (it.1, it.2.2)

/-- The fixed-point loop of `DeadCode::run` (fuel chosen large enough;
adequacy is proved below). -/
def runLoop (m : Module) : Module × Nat :=
  runLoopFuel (totalSize m + 1) m

/-- `DeadCode::sweep_globally`: collect the functions with an empty
use-list other than `main` and the globals with an empty use-list, log
their counts, and leave the module untouched.  Returns the module
(unchanged) and the two reported name lists. -/
def sweep_globally (m : Module) : Module × List String × List String :=
  let unused_funcs := (m.functions.filter fun f =>
    f.useList.length == 0 && f.name != "main").map Func.name
  let unused_globals := (m.globals.filter fun g =>
    g.useList.length == 0).map GlobalVariable.name
  (m, unused_funcs, unused_globals)

/-- `DeadCode::run`: iterate prune/mark/sweep over all functions to a
fixed point, then run the module-level residual scan; returns the module
and the reported `ins_count`. -/
def run (m : Module) : Module × Nat :=
  let lp := runLoop m
  ((sweep_globally lp.1).1, lp.2)

/-- SSA well-formedness within one function: instruction ids are distinct
(ids model the distinct C++ instruction objects). -/
def uniqueIds (f : Func) : Prop :=
  ((funcInstrs f).map Instruction.id).Nodup

/-- Well-formedness of a function's block list: block ids are distinct. -/
def uniqueBlockIds (f : Func) : Prop :=
  (f.blocks.map BasicBlock.id).Nodup

instance (f : Func) : Decidable (uniqueIds f) :=
  inferInstanceAs (Decidable (((funcInstrs f).map Instruction.id).Nodup))

instance (f : Func) : Decidable (uniqueBlockIds f) :=
  inferInstanceAs (Decidable ((f.blocks.map BasicBlock.id).Nodup))

/-- The liveness relation of the specification: an id is live when it is
the id of a critical instruction of the function, or an instruction
operand of a live instruction of the function. -/
inductive Live (f : Func) : Nat → Prop where
  | crit : ∀ i, i ∈ funcInstrs f → is_critical i = true → Live f i.id
  | oper : ∀ i oid, Live f i.id → i ∈ funcInstrs f → oid ∈ instrOperandIds i →
      Live f oid

/-- Number of instructions destroyed by one `clear_basic_blocks` call on
`f`: the instructions of the erased blocks (these are not counted in
`ins_count`). -/
def prunedCountF (f : Func) : Nat :=
  ((f.blocks.filter (bbDead f)).map fun bb => bb.instrs.length).sum

/-- Instructions destroyed by the pruner during one outer iteration. -/
def prunedCountM (m : Module) : Nat :=
  (m.functions.map prunedCountF).sum

/-- Ghost statistics of the fixed-point loop: total number of
instructions destroyed by the block pruner, and number of outer
iterations executed. -/
def runLoopStats : Nat → Module → Nat × Nat
  | 0, _ => (0, 0)
  | fuel + 1, m =>
    let it := runIter m
    if it.2.1 then
      let r := runLoopStats fuel it.1
      (prunedCountM m + r.1, r.2 + 1)
    else (prunedCountM m, 1)

/-- Example function: `a = add 1, 2; b = add a, a; x = mul 3, 4; ret b`
(scenario A of the spec plus a dead pure multiply). -/
def fEx2 : Func :=
  { name := "f", entry := 0, useList := [],
    blocks := [
      { id := 0, instrs := [
          { id := 1, kind := .add, operands := [.constVal 1, .constVal 2] },
          { id := 2, kind := .add, operands := [.instrRef 1, .instrRef 1] },
          { id := 3, kind := .mul, operands := [.constVal 3, .constVal 4] },
          { id := 4, kind := .ret, operands := [.instrRef 2] }] }] }

/-- Example module: a `main` whose entry block returns, plus an
unreachable block holding a store instruction.  The pruner erases the
unreachable block together with the store. -/
def mEx : Module :=
  { functions := [
      { name := "main", entry := 0, useList := [],
        blocks := [
          { id := 0, instrs := [
              { id := 10, kind := .ret, operands := [.constVal 0] }] },
          { id := 1, instrs := [
              { id := 11, kind := .store,
                operands := [.constVal 1, .globalRef "g"] }] }] }],
    globals := [{ name := "g", useList := [11] }] }

/-- Example module for the residual scan: an unused helper function and
an unused global next to `main`. -/
def mEx3 : Module :=
  { functions := [
      { name := "main", entry := 0, useList := [],
        blocks := [
          { id := 0, instrs := [
              { id := 10, kind := .ret, operands := [.constVal 0] }] }] },
      { name := "helper", entry := 0, useList := [], blocks := [] }],
    globals := [{ name := "g", useList := [] },
                { name := "h", useList := [7] }] }

/-! ## Basic bridging lemmas -/

theorem contains_iff_mem (l : List Nat) (a : Nat) :
    l.contains a = true ↔ a ∈ l := by
  simp [List.contains, List.elem_iff]

theorem sweepDel_eq (marked : List Nat) (i : Instruction) :
    sweepDel marked i = (decide (i.id ∉ marked) && !(is_critical i)) := by
  by_cases h : i.id ∈ marked <;>
    simp [sweepDel, h, (contains_iff_mem marked i.id).2, contains_iff_mem]

theorem sweepDel_critical (marked : List Nat) (i : Instruction)
    (h : is_critical i = true) : sweepDel marked i = false := by
  simp [sweepDel, h]

theorem sweepDel_true_iff (marked : List Nat) (i : Instruction) :
    sweepDel marked i = true ↔ i.id ∉ marked ∧ is_critical i = false := by
  simp [sweepDel_eq]

theorem funcInstrs_sweep (marked : List Nat) (f : Func) :
    funcInstrs (sweep marked f).1 =
      (funcInstrs f).filter fun i => !(sweepDel marked i) := by
  simp [funcInstrs, sweep, List.filter_flatten, List.map_map]
  rfl

/-! ## C8: the critical-instruction classifier -/

/-- C8: `is_critical` is a pure predicate of the instruction kind,
true exactly for store, return, call, branch, phi, alloca and load, and
false for every other kind. -/
theorem is_critical_kind_iff (i : Instruction) :
    is_critical i = true ↔
      (i.kind = .store ∨ i.kind = .ret ∨ i.kind = .call ∨ i.kind = .br ∨
       i.kind = .phi ∨ i.kind = .alloca ∨ i.kind = .load) := by
  cases hk : i.kind <;>
    simp [is_critical, Instruction.is_store, Instruction.is_ret,
      Instruction.is_call, Instruction.is_br, Instruction.is_phi,
      Instruction.is_alloca, Instruction.is_load, hk]

/-! ## C7: the unreachable-block pruner -/

/-- C7: `clear_basic_blocks` erases exactly the non-entry blocks whose
predecessor set (computed once, against the function as given) is empty,
keeps every other block — in particular the entry block, whatever its
predecessor count — and returns true iff some block was erased. -/
theorem clear_basic_blocks_spec (f : Func) :
    (∀ bb, bb ∈ (clear_basic_blocks f).1.blocks ↔
      (bb ∈ f.blocks ∧ ¬(getPreBasicBlocks f bb = [] ∧ bb.id ≠ f.entry))) ∧
    (∀ bb, bb ∈ f.blocks → bb.id = f.entry →
      bb ∈ (clear_basic_blocks f).1.blocks) ∧
    ((clear_basic_blocks f).2 = true ↔
      ∃ bb ∈ f.blocks, getPreBasicBlocks f bb = [] ∧ bb.id ≠ f.entry) := by
  refine ⟨?_, ?_, ?_⟩
  · intro bb
    simp [clear_basic_blocks, List.mem_filter, bbDead, List.isEmpty_iff,
      bne_iff_ne, -ne_eq, Decidable.not_and_iff_or_not]
    tauto
  · intro bb hbb he
    simp [clear_basic_blocks, List.mem_filter, bbDead, List.isEmpty_iff,
      bne_iff_ne, hbb, he]
  · have he : (clear_basic_blocks f).2 =
        !(f.blocks.filter (bbDead f)).isEmpty := rfl
    rw [he, Bool.not_eq_true', List.isEmpty_eq_false, Ne,
      List.filter_eq_nil_iff]
    push_neg
    constructor
    · rintro ⟨bb, hbb, hd⟩
      refine ⟨bb, hbb, ?_⟩
      simpa [bbDead, List.isEmpty_iff, bne_iff_ne] using hd
    · rintro ⟨bb, hbb, h1, h2⟩
      exact ⟨bb, hbb, by simp [bbDead, List.isEmpty_iff, bne_iff_ne, h1, h2]⟩

/-- Witness for `clear_basic_blocks_spec`: on the example module's
function, the entry block is kept. -/
theorem clear_basic_blocks_spec_witness :
    ((mEx.functions.headI).blocks.headI ∈ (mEx.functions.headI).blocks ∧
      (mEx.functions.headI).blocks.headI.id = (mEx.functions.headI).entry) ∧
    (mEx.functions.headI).blocks.headI ∈
      (clear_basic_blocks (mEx.functions.headI)).1.blocks :=
  ⟨⟨by decide, by decide⟩,
    (clear_basic_blocks_spec (mEx.functions.headI)).2.1
      (mEx.functions.headI).blocks.headI (by decide) (by decide)⟩

/-! ## C9: the module-level residual scan -/

/-- C9: `sweep_globally` leaves the module untouched and reports exactly
the functions with an empty use-list other than `main` and the globals
with an empty use-list. -/
theorem sweep_globally_spec (m : Module) :
    ((sweep_globally m).1 = m) ∧
    (∀ s, s ∈ (sweep_globally m).2.1 ↔
      ∃ F ∈ m.functions, F.useList = [] ∧ F.name ≠ "main" ∧ F.name = s) ∧
    (∀ s, s ∈ (sweep_globally m).2.2 ↔
      ∃ g ∈ m.globals, g.useList = [] ∧ g.name = s) := by
  refine ⟨rfl, ?_, ?_⟩
  · intro s
    simp [sweep_globally, List.mem_map, List.mem_filter,
      List.length_eq_zero, bne_iff_ne]
    tauto
  · intro s
    simp [sweep_globally, List.mem_map, List.mem_filter,
      List.length_eq_zero]
    tauto

/-! ## C3: the sweeper -/

/-- C3: `sweep` erases from each block exactly the instructions that are
unmarked and non-critical, keeps everything else in place (block ids and
order untouched), reports a change iff at least one instruction was
erased, and adds the number of erased instructions to the counter. -/
theorem sweep_spec (marked : List Nat) (f : Func) :
    ((sweep marked f).1.name = f.name ∧
     (sweep marked f).1.entry = f.entry ∧
     (sweep marked f).1.useList = f.useList) ∧
    ((sweep marked f).1.blocks.length = f.blocks.length) ∧
    (∀ k : Nat, ((sweep marked f).1.blocks[k]?).map BasicBlock.id =
      (f.blocks[k]?).map BasicBlock.id) ∧
    (∀ k : Nat, ((sweep marked f).1.blocks[k]?).map BasicBlock.instrs =
      (f.blocks[k]?).map fun bb =>
        bb.instrs.filter fun i => decide (i.id ∈ marked) || is_critical i) ∧
    ((sweep marked f).2.1 = true ↔
      ∃ i ∈ funcInstrs f, i.id ∉ marked ∧ is_critical i = false) ∧
    ((sweep marked f).2.2 =
      ((funcInstrs f).filter fun i =>
        decide (i.id ∉ marked) && !(is_critical i)).length) := by
  refine ⟨⟨rfl, rfl, rfl⟩, by simp [sweep], ?_, ?_, ?_, ?_⟩
  · intro k
    cases h : f.blocks[k]? with
    | none => simp [sweep, List.getElem?_map, h]
    | some bb => simp [sweep, sweepKeep, List.getElem?_map, h]
  · intro k
    cases h : f.blocks[k]? with
    | none => simp [sweep, List.getElem?_map, h]
    | some bb =>
      simp only [sweep, sweepKeep, List.getElem?_map, h, Option.map_some']
      congr 1
      exact List.filter_congr fun i _ => by
        by_cases hm : i.id ∈ marked <;> by_cases hc : is_critical i <;>
          simp [sweepDel_eq, hm, hc]
  · have he : (sweep marked f).2.1 =
        !((funcInstrs f).filter (sweepDel marked)).isEmpty := rfl
    rw [he, Bool.not_eq_true', List.isEmpty_eq_false, Ne,
      List.filter_eq_nil_iff]
    push_neg
    constructor
    · rintro ⟨i, hi, hd⟩
      exact ⟨i, hi, (sweepDel_true_iff marked i).1 hd⟩
    · rintro ⟨i, hi, h1, h2⟩
      exact ⟨i, hi, (sweepDel_true_iff marked i).2 ⟨h1, h2⟩⟩
  · exact congrArg List.length
      (List.filter_congr fun i _ => sweepDel_eq marked i)

/-! ## The mark phase: elementary step lemmas -/

theorem markIns_marked_mono {s : MarkState} {id id' : Nat}
    (h : id' ∈ s.marked) : id' ∈ (markIns s id).marked := by
  unfold markIns
  split
  · exact h
  · exact List.mem_cons_of_mem _ h

theorem markIns_self_marked (s : MarkState) (id : Nat) :
    id ∈ (markIns s id).marked := by
  unfold markIns
  split
  · assumption
  · exact List.mem_cons_self _ _

theorem markIns_marked_cases {s : MarkState} {id id' : Nat}
    (h : id' ∈ (markIns s id).marked) : id' ∈ s.marked ∨ id' = id := by
  unfold markIns at h
  split at h
  · exact Or.inl h
  · rcases List.mem_cons.1 h with h | h
    · exact Or.inr h
    · exact Or.inl h

theorem markIns_wl_mono {s : MarkState} {id id' : Nat}
    (h : id' ∈ s.work_list) : id' ∈ (markIns s id).work_list := by
  unfold markIns
  split
  · exact h
  · exact List.mem_append_left _ h

theorem markIns_wl_cases {s : MarkState} {id id' : Nat}
    (h : id' ∈ (markIns s id).work_list) : id' ∈ s.work_list ∨ id' = id := by
  unfold markIns at h
  split at h
  · exact Or.inl h
  · rcases List.mem_append.1 h with h | h
    · exact Or.inl h
    · exact Or.inr (by simpa using h)

theorem markIns_marked_wl {s : MarkState} {id id' : Nat}
    (h : id' ∈ (markIns s id).marked) :
    id' ∈ s.marked ∨ id' ∈ (markIns s id).work_list := by
  unfold markIns at h ⊢
  split at h
  · exact Or.inl h
  · rcases List.mem_cons.1 h with h | h
    · subst h
      simp [*]
    · exact Or.inl h

theorem processOperands_cons (s : MarkState) (o : Nat) (t : List Nat) :
    processOperands s (o :: t) = processOperands (markIns s o) t := rfl

theorem processOperands_marked_mono {ops : List Nat} {s : MarkState}
    {id' : Nat} (h : id' ∈ s.marked) :
    id' ∈ (processOperands s ops).marked := by
  induction ops generalizing s with
  | nil => exact h
  | cons o t ih => exact ih (markIns_marked_mono h)

theorem processOperands_wl_mono {ops : List Nat} {s : MarkState}
    {id' : Nat} (h : id' ∈ s.work_list) :
    id' ∈ (processOperands s ops).work_list := by
  induction ops generalizing s with
  | nil => exact h
  | cons o t ih => exact ih (markIns_wl_mono h)

theorem processOperands_ops_marked {ops : List Nat} {s : MarkState} :
    ∀ oid ∈ ops, oid ∈ (processOperands s ops).marked := by
  induction ops generalizing s with
  | nil => intro oid h; cases h
  | cons o t ih =>
    intro oid h
    rw [processOperands_cons]
    rcases List.mem_cons.1 h with h | h
    · subst h
      exact processOperands_marked_mono (markIns_self_marked s oid)
    · exact ih oid h

theorem processOperands_marked_cases {ops : List Nat} {s : MarkState}
    {id' : Nat} (h : id' ∈ (processOperands s ops).marked) :
    id' ∈ s.marked ∨ id' ∈ ops := by
  induction ops generalizing s with
  | nil => exact Or.inl h
  | cons o t ih =>
    rcases ih h with h | h
    · rcases markIns_marked_cases h with h | h
      · exact Or.inl h
      · exact Or.inr (h ▸ List.mem_cons_self _ _)
    · exact Or.inr (List.mem_cons_of_mem _ h)

theorem processOperands_wl_cases {ops : List Nat} {s : MarkState}
    {id' : Nat} (h : id' ∈ (processOperands s ops).work_list) :
    id' ∈ s.work_list ∨ id' ∈ ops := by
  induction ops generalizing s with
  | nil => exact Or.inl h
  | cons o t ih =>
    rcases ih h with h | h
    · rcases markIns_wl_cases h with h | h
      · exact Or.inl h
      · exact Or.inr (h ▸ List.mem_cons_self _ _)
    · exact Or.inr (List.mem_cons_of_mem _ h)

theorem processOperands_marked_wl {ops : List Nat} {s : MarkState}
    {id' : Nat} (h : id' ∈ (processOperands s ops).marked) :
    id' ∈ s.marked ∨ id' ∈ (processOperands s ops).work_list := by
  induction ops generalizing s with
  | nil => exact Or.inl h
  | cons o t ih =>
    rw [processOperands_cons] at h ⊢
    rcases ih h with h | h
    · rcases markIns_marked_wl h with h | h
      · exact Or.inl h
      · exact Or.inr (processOperands_wl_mono h)
    · exact Or.inr h

/-! ## The mark phase: termination measure -/

theorem length_filter_not_mem_cons (univ : List Nat) (a : Nat)
    (marked : List Nat) (ha : a ∈ univ) (hm : a ∉ marked) :
    (univ.filter fun x => !((a :: marked).contains x)).length + 1 ≤
      (univ.filter fun x => !(marked.contains x)).length := by
  have h1 : (univ.filter fun x => !((a :: marked).contains x)) =
      (univ.filter fun x => !(marked.contains x)).filter
        fun x => !(x == a) := by
    rw [List.filter_filter]
    refine List.filter_congr fun x _ => ?_
    show (!((a :: marked).contains x)) = (!(x == a) && !(marked.contains x))
    by_cases hxa : x = a <;> by_cases hxm : x ∈ marked <;>
      simp [hxa, hxm, contains_iff_mem, (contains_iff_mem _ _).2]
  rw [h1]
  have ha2 : a ∈ univ.filter fun x => !(marked.contains x) := by
    rw [List.mem_filter]
    exact ⟨ha, by simpa using hm⟩
  have := List.length_filter_lt_length_iff_exists
    (l := univ.filter fun x => !(marked.contains x))
    (p := fun x => !(x == a)) |>.2 ⟨a, ha2, by simp⟩
  omega

theorem markIns_measure (f : Func) (s : MarkState) (id : Nat)
    (hid : id ∈ markUniverse f) :
    markMeasure f (markIns s id) ≤ markMeasure f s := by
  unfold markIns
  split
  · exact Nat.le_refl _
  · next hm =>
    unfold markMeasure
    simp only [List.length_append, List.length_cons, List.length_nil]
    have := length_filter_not_mem_cons (markUniverse f) id s.marked hid hm
    omega

theorem processOperands_measure (f : Func) (ops : List Nat)
    (hops : ∀ oid ∈ ops, oid ∈ markUniverse f) (s : MarkState) :
    markMeasure f (processOperands s ops) ≤ markMeasure f s := by
  induction ops generalizing s with
  | nil => exact Nat.le_refl _
  | cons o t ih =>
    exact (ih (fun oid h => hops oid (List.mem_cons_of_mem _ h)) _).trans
      (markIns_measure f s o (hops o (List.mem_cons_self _ _)))

theorem instrOperandIds_subset_universe {f : Func} {i : Instruction}
    (hi : i ∈ funcInstrs f) :
    ∀ oid ∈ instrOperandIds i, oid ∈ markUniverse f := by
  intro oid h
  unfold markUniverse
  rw [List.mem_dedup]
  refine List.mem_append.2 (Or.inr ?_)
  rw [List.mem_flatten]
  exact ⟨instrOperandIds i, List.mem_map_of_mem _ hi, h⟩

theorem drainOps_subset_universe (f : Func) (id : Nat) :
    ∀ oid ∈ drainOps f id, oid ∈ markUniverse f := by
  unfold drainOps
  split
  · next i hfind =>
    exact instrOperandIds_subset_universe
      (List.mem_of_find?_eq_some hfind)
  · intro oid h
    cases h

theorem drain_step_measure (f : Func) (s : MarkState) (id : Nat)
    (rest : List Nat) (hwl : s.work_list = id :: rest) :
    markMeasure f
        (processOperands { s with work_list := rest } (drainOps f id)) <
      markMeasure f s := by
  have h1 := processOperands_measure f (drainOps f id)
    (drainOps_subset_universe f id) { s with work_list := rest }
  have h2 : markMeasure f { s with work_list := rest } + 1 =
      markMeasure f s := by
    unfold markMeasure
    rw [hwl]
    simp [Nat.add_assoc]
  omega

/-! ## The mark phase: drain invariants -/

theorem drainFuel_wl_nil (f : Func) :
    ∀ fuel s, markMeasure f s < fuel →
      (drainFuel f fuel s).work_list = [] := by
  intro fuel
  induction fuel with
  | zero => intro s h; cases h
  | succ n ih =>
    intro s h
    unfold drainFuel
    cases hwl : s.work_list with
    | nil => simpa using hwl
    | cons id rest =>
      refine ih _ ?_
      have := drain_step_measure f s id rest hwl
      omega

theorem drainFuel_marked_mono (f : Func) :
    ∀ fuel s id', id' ∈ s.marked →
      id' ∈ (drainFuel f fuel s).marked := by
  intro fuel
  induction fuel with
  | zero => intro s id' h; exact h
  | succ n ih =>
    intro s id' h
    unfold drainFuel
    cases hwl : s.work_list with
    | nil => exact h
    | cons id rest => exact ih _ _ (processOperands_marked_mono h)

theorem drainOps_live {f : Func} {id : Nat} (hid : Live f id) :
    ∀ oid ∈ drainOps f id, Live f oid := by
  unfold drainOps
  split
  · next i hfind =>
    intro oid h
    have hmem := List.mem_of_find?_eq_some hfind
    have hiid : i.id = id := by simpa using List.find?_some hfind
    exact Live.oper i oid (hiid ▸ hid) hmem h
  · intro oid h
    cases h

theorem drainFuel_sound (f : Func) :
    ∀ fuel s, (∀ id ∈ s.marked, Live f id) →
      (∀ id ∈ s.work_list, Live f id) →
      ∀ id ∈ (drainFuel f fuel s).marked, Live f id := by
  intro fuel
  induction fuel with
  | zero => intro s hm _ id h; exact hm id h
  | succ n ih =>
    intro s hm hw
    unfold drainFuel
    cases hwl : s.work_list with
    | nil => exact hm
    | cons id rest =>
      have hidlive : Live f id := hw id (hwl ▸ List.mem_cons_self _ _)
      refine ih _ ?_ ?_
      · intro id' h
        rcases processOperands_marked_cases h with h | h
        · exact hm id' h
        · exact drainOps_live hidlive id' h
      · intro id' h
        rcases processOperands_wl_cases h with h | h
        · exact hw id' (hwl ▸ List.mem_cons_of_mem _ h)
        · exact drainOps_live hidlive id' h

theorem findInstr_eq_of_unique {f : Func} (hwf : uniqueIds f)
    {i : Instruction} (hi : i ∈ funcInstrs f) :
    findInstr f i.id = some i := by
  unfold findInstr
  have hsome : ((funcInstrs f).find? fun x => x.id == i.id).isSome :=
    List.find?_isSome.2 ⟨i, hi, by simp⟩
  obtain ⟨x, hx⟩ := Option.isSome_iff_exists.1 hsome
  have hxid : x.id = i.id := by simpa using List.find?_some hx
  have hxmem := List.mem_of_find?_eq_some hx
  have hxi : x = i := List.inj_on_of_nodup_map hwf hxmem hi hxid
  rw [hx, hxi]

theorem drainFuel_sat (f : Func) (hwf : uniqueIds f) :
    ∀ fuel s, Sat f s → Sat f (drainFuel f fuel s) := by
  intro fuel
  induction fuel with
  | zero => intro s h; exact h
  | succ n ih =>
    intro s hsat
    unfold drainFuel
    cases hwl : s.work_list with
    | nil => exact hsat
    | cons id rest =>
      refine ih _ ?_
      intro id0 h0m h0w i hi hid oid hoid
      have h0old : id0 ∈ s.marked := by
        rcases processOperands_marked_wl h0m with h | h
        · exact h
        · exact absurd h h0w
      by_cases hcase : id0 = id
      · subst hcase
        have hfind : findInstr f id0 = some i := by
          rw [← hid]
          exact findInstr_eq_of_unique hwf hi
        have hops : drainOps f id0 = instrOperandIds i := by
          unfold drainOps
          rw [hfind]
        exact processOperands_ops_marked oid (hops ▸ hoid)
      · have h0notwl : id0 ∉ s.work_list := by
          intro hmem
          rw [hwl] at hmem
          rcases List.mem_cons.1 hmem with h | h
          · exact hcase h
          · exact h0w (processOperands_wl_mono h)
        exact processOperands_marked_mono
          (hsat id0 h0old h0notwl i hi hid oid hoid)

/-! ## The mark phase: the initial state -/

theorem markInit_marked_iff (f : Func) (id : Nat) :
    id ∈ (markInit f).marked ↔
      ∃ i ∈ funcInstrs f, is_critical i = true ∧ i.id = id := by
  have key : ∀ (l : List Instruction) (s : MarkState) (id : Nat),
      id ∈ (l.foldl (fun s i => markIns s i.id) s).marked ↔
        id ∈ s.marked ∨ ∃ i ∈ l, i.id = id := by
    intro l
    induction l with
    | nil => simp
    | cons a t ih =>
      intro s id
      rw [List.foldl_cons, ih]
      constructor
      · rintro (h | h)
        · rcases markIns_marked_cases h with h | h
          · exact Or.inl h
          · exact Or.inr ⟨a, List.mem_cons_self _ _, h.symm⟩
        · obtain ⟨i, hi, hd⟩ := h
          exact Or.inr ⟨i, List.mem_cons_of_mem _ hi, hd⟩
      · rintro (h | ⟨i, hi, hd⟩)
        · exact Or.inl (markIns_marked_mono h)
        · rcases List.mem_cons.1 hi with h | h
          · subst h
            exact Or.inl (hd ▸ markIns_self_marked s i.id)
          · exact Or.inr ⟨i, h, hd⟩
  unfold markInit
  rw [key]
  simp only [List.mem_filter, List.not_mem_nil, false_or]
  constructor
  · rintro ⟨i, ⟨hi, hc⟩, hd⟩
    exact ⟨i, hi, hc, hd⟩
  · rintro ⟨i, hi, hc, hd⟩
    exact ⟨i, ⟨hi, hc⟩, hd⟩

theorem markInit_marked_iff_wl (f : Func) (id : Nat) :
    id ∈ (markInit f).marked ↔ id ∈ (markInit f).work_list := by
  have key : ∀ (l : List Instruction) (s : MarkState),
      (∀ id', id' ∈ s.marked ↔ id' ∈ s.work_list) →
      ∀ id', id' ∈ (l.foldl (fun s i => markIns s i.id) s).marked ↔
        id' ∈ (l.foldl (fun s i => markIns s i.id) s).work_list := by
    intro l
    induction l with
    | nil => intro s h; exact h
    | cons a t ih =>
      intro s h
      refine ih _ fun id' => ?_
      by_cases hmem : a.id ∈ s.marked
      · simpa [markIns, hmem] using h id'
      · have hiff := h id'
        simp only [markIns, hmem, if_neg, List.mem_cons, List.mem_append,
          List.mem_singleton, not_false_eq_true]
        tauto
  exact key _ _ (fun id' => by simp [List.not_mem_nil]) id

theorem markInit_sat (f : Func) : Sat f (markInit f) := by
  intro id hm hw
  exact absurd ((markInit_marked_iff_wl f id).1 hm) hw

/-! ## The mark phase: main characterization (C2) -/

theorem markFunc_wl_nil (f : Func) : (markFunc f).work_list = [] :=
  drainFuel_wl_nil f _ _ (Nat.lt_succ_self _)

theorem mark_sound (f : Func) : ∀ id ∈ (markFunc f).marked, Live f id := by
  refine drainFuel_sound f _ _ ?_ ?_
  · intro id h
    obtain ⟨i, hi, hc, hd⟩ := (markInit_marked_iff f id).1 h
    exact hd ▸ Live.crit i hi hc
  · intro id h
    obtain ⟨i, hi, hc, hd⟩ :=
      (markInit_marked_iff f id).1 ((markInit_marked_iff_wl f id).2 h)
    exact hd ▸ Live.crit i hi hc

theorem markFunc_sat (f : Func) (hwf : uniqueIds f) : Sat f (markFunc f) :=
  drainFuel_sat f hwf _ _ (markInit_sat f)

theorem mark_complete (f : Func) (hwf : uniqueIds f) {id : Nat}
    (h : Live f id) : id ∈ (markFunc f).marked := by
  induction h with
  | crit i hi hc =>
    exact drainFuel_marked_mono f _ _ _
      ((markInit_marked_iff f i.id).2 ⟨i, hi, hc, rfl⟩)
  | oper i oid hlive hi hoid ih =>
    exact markFunc_sat f hwf i.id ih
      (by rw [markFunc_wl_nil]; exact List.not_mem_nil _) i hi rfl oid hoid

/-- C2: after `mark`, an id is marked live iff it is the id of a critical
instruction of the function or is reachable from one by following
instruction-valued operand edges — i.e. `mark` computes exactly the least
set containing the critical instructions and closed under taking
instruction operands (`Live`). -/
theorem mark_live_iff (f : Func) (hwf : uniqueIds f) (id : Nat) :
    id ∈ (markFunc f).marked ↔ Live f id :=
  ⟨mark_sound f id, mark_complete f hwf⟩

/-- Witness for `mark_live_iff` on the scenario-A function. -/
theorem mark_live_iff_witness :
    uniqueIds fEx2 ∧ (1 ∈ (markFunc fEx2).marked ↔ Live fEx2 1) :=
  ⟨by decide, mark_live_iff fEx2 (by decide) 1⟩

/-! ## C4: sweep leaves no dangling operand references -/

/-- C4: after `sweep` with the marks of the most recent `mark` over the
same function, no surviving instruction has an instruction operand whose
instruction was deleted by the sweep. -/
theorem sweep_no_dangling (f : Func) (hwf : uniqueIds f) :
    ∀ r, r ∈ funcInstrs (sweep (markFunc f).marked f).1 →
    ∀ oid, oid ∈ instrOperandIds r →
    ∀ d, d ∈ funcInstrs f → d.id = oid →
      d ∈ funcInstrs (sweep (markFunc f).marked f).1 := by
  intro r hr oid hoid d hd hdid
  rw [funcInstrs_sweep] at hr ⊢
  rw [List.mem_filter] at hr
  obtain ⟨hrf, hrkeep⟩ := hr
  have hrm : r.id ∈ (markFunc f).marked := by
    rcases hcrit : is_critical r with hc | hc
    · have : sweepDel (markFunc f).marked r = false := by
        simpa using hrkeep
      rw [sweepDel_eq] at this
      simp only [hcrit, Bool.not_false, Bool.and_true,
        decide_eq_false_iff_not, not_not] at this
      exact this
    · exact mark_complete f hwf (Live.crit r hrf hcrit)
  have hoidm : oid ∈ (markFunc f).marked :=
    markFunc_sat f hwf r.id hrm
      (by rw [markFunc_wl_nil]; exact List.not_mem_nil _) r hrf rfl oid hoid
  rw [List.mem_filter]
  refine ⟨hd, ?_⟩
  have : sweepDel (markFunc f).marked d = false := by
    rw [sweepDel_eq]
    simp [hdid ▸ hoidm]
  simp [this]

/-- Witness for `sweep_no_dangling`: in the scenario-A function, the
surviving `b = add a, a` refers to `a = add 1, 2`, which also survives. -/
theorem sweep_no_dangling_witness :
    uniqueIds fEx2 ∧
    ({ id := 2, kind := .add, operands := [.instrRef 1, .instrRef 1] }
        : Instruction) ∈ funcInstrs (sweep (markFunc fEx2).marked fEx2).1 ∧
    (1 : Nat) ∈ instrOperandIds
      { id := 2, kind := .add, operands := [.instrRef 1, .instrRef 1] } ∧
    ({ id := 1, kind := .add, operands := [.constVal 1, .constVal 2] }
        : Instruction) ∈ funcInstrs fEx2 ∧
    ({ id := 1, kind := .add, operands := [.constVal 1, .constVal 2] }
        : Instruction) ∈ funcInstrs (sweep (markFunc fEx2).marked fEx2).1 :=
  ⟨by decide, by decide, by decide, by decide,
    sweep_no_dangling fEx2 (by decide)
      { id := 2, kind := .add, operands := [.instrRef 1, .instrRef 1] }
      (by decide) 1 (by decide)
      { id := 1, kind := .add, operands := [.constVal 1, .constVal 2] }
      (by decide) (by decide)⟩

/-! ## List accounting helpers -/

theorem sum_map_add {α : Type} (l : List α) (g h : α → Nat) :
    (l.map fun x => g x + h x).sum = (l.map g).sum + (l.map h).sum := by
  induction l with
  | nil => rfl
  | cons a t ih => simp [ih]; omega

theorem sum_map_filter_add {α : Type} (l : List α) (p : α → Bool)
    (g : α → Nat) :
    ((l.filter p).map g).sum + ((l.filter fun x => !(p x)).map g).sum =
      (l.map g).sum := by
  induction l with
  | nil => rfl
  | cons a t ih =>
    by_cases h : p a <;> simp [h, List.filter_cons] <;> omega

theorem length_filter_partition {α : Type} (l : List α) (p : α → Bool) :
    (l.filter p).length + (l.filter fun x => !(p x)).length = l.length := by
  induction l with
  | nil => rfl
  | cons a t ih =>
    by_cases h : p a <;> simp [h, List.filter_cons] <;> omega

/-! ## Sizes of the pruner and sweeper results -/

theorem instrCountF_eq_sum (f : Func) :
    instrCountF f = (f.blocks.map fun bb => bb.instrs.length).sum := by
  simp [instrCountF, funcInstrs, List.length_flatten, List.map_map]
  rfl

theorem clear_conservation (f : Func) :
    instrCountF (clear_basic_blocks f).1 + prunedCountF f = instrCountF f := by
  rw [instrCountF_eq_sum, instrCountF_eq_sum, prunedCountF]
  show ((f.blocks.filter fun bb => !(bbDead f bb)).map
      fun bb => bb.instrs.length).sum + _ = _
  rw [Nat.add_comm]
  exact sum_map_filter_add f.blocks (bbDead f) fun bb => bb.instrs.length

theorem clear_block_le (f : Func) :
    blockCountF (clear_basic_blocks f).1 ≤ blockCountF f :=
  List.length_filter_le _ _

theorem clear_changed_block_lt (f : Func)
    (h : (clear_basic_blocks f).2 = true) :
    blockCountF (clear_basic_blocks f).1 < blockCountF f := by
  have he : (clear_basic_blocks f).2 =
      !(f.blocks.filter (bbDead f)).isEmpty := rfl
  rw [he, Bool.not_eq_true', List.isEmpty_eq_false, Ne,
    List.filter_eq_nil_iff] at h
  push_neg at h
  obtain ⟨bb, hbb, hd⟩ := h
  exact List.length_filter_lt_length_iff_exists.2 ⟨bb, hbb, by simp [hd]⟩

theorem sweep_instr_le (marked : List Nat) (f : Func) :
    instrCountF (sweep marked f).1 ≤ instrCountF f := by
  rw [instrCountF, instrCountF, funcInstrs_sweep]
  exact List.length_filter_le _ _

theorem sweep_block_eq (marked : List Nat) (f : Func) :
    blockCountF (sweep marked f).1 = blockCountF f := by
  simp [blockCountF, sweep]

theorem sweep_conservation (marked : List Nat) (f : Func) :
    instrCountF (sweep marked f).1 + (sweep marked f).2.2 = instrCountF f := by
  rw [instrCountF, instrCountF, funcInstrs_sweep]
  show _ + ((funcInstrs f).filter (sweepDel marked)).length = _
  rw [Nat.add_comm]
  exact length_filter_partition (funcInstrs f) (sweepDel marked)

theorem sweep_changed_instr_lt (marked : List Nat) (f : Func)
    (h : (sweep marked f).2.1 = true) :
    instrCountF (sweep marked f).1 < instrCountF f := by
  have he : (sweep marked f).2.1 =
      !((funcInstrs f).filter (sweepDel marked)).isEmpty := rfl
  rw [he, Bool.not_eq_true', List.isEmpty_eq_false, Ne,
    List.filter_eq_nil_iff] at h
  push_neg at h
  obtain ⟨i, hi, hd⟩ := h
  rw [instrCountF, instrCountF, funcInstrs_sweep]
  exact List.length_filter_lt_length_iff_exists.2 ⟨i, hi, by simp [hd]⟩

/-! ## No-change lemmas -/

theorem clear_unchanged (f : Func) (h : (clear_basic_blocks f).2 = false) :
    (clear_basic_blocks f).1 = f := by
  have he : (clear_basic_blocks f).2 =
      !(f.blocks.filter (bbDead f)).isEmpty := rfl
  rw [he, Bool.not_eq_false', List.isEmpty_eq_true,
    List.filter_eq_nil_iff] at h
  show { f with blocks := _ } = f
  have : f.blocks.filter (fun bb => !(bbDead f bb)) = f.blocks :=
    List.filter_eq_self.2 fun bb hbb => by simp [h bb hbb]
  rw [this]

theorem sweep_unchanged (marked : List Nat) (f : Func)
    (h : (sweep marked f).2.1 = false) :
    (sweep marked f).1 = f ∧ (sweep marked f).2.2 = 0 := by
  have he : (sweep marked f).2.1 =
      !((funcInstrs f).filter (sweepDel marked)).isEmpty := rfl
  rw [he, Bool.not_eq_false', List.isEmpty_eq_true,
    List.filter_eq_nil_iff] at h
  have hmap : (sweep marked f).1.blocks = f.blocks := by
    show (f.blocks.map _) = f.blocks
    conv_rhs => rw [← List.map_id f.blocks]
    refine List.map_congr_left fun bb hbb => ?_
    have hkeep : bb.instrs.filter (fun i => !(sweepDel marked i)) =
        bb.instrs := by
      refine List.filter_eq_self.2 fun i hi => ?_
      have him : i ∈ funcInstrs f :=
        List.mem_flatten.2 ⟨bb.instrs, List.mem_map_of_mem _ hbb, hi⟩
      simp [h i him]
    simp [sweepKeep, hkeep]
  refine ⟨?_, ?_⟩
  · have hfull : ({ f with blocks := (sweep marked f).1.blocks } : Func) =
        f := by rw [hmap]
    exact hfull
  · show ((funcInstrs f).filter (sweepDel marked)).length = 0
    rw [List.filter_eq_nil_iff.2 h]
    rfl

/-! ## Per-function and per-iteration accounting -/

theorem processFunction_instr_le (f : Func) :
    instrCountF (processFunction f).1 ≤ instrCountF f := by
  have h1 := sweep_instr_le
    (markFunc (clear_basic_blocks f).1).marked (clear_basic_blocks f).1
  have h2 := clear_conservation f
  show instrCountF (sweep _ (clear_basic_blocks f).1).1 ≤ _
  omega

theorem processFunction_block_le (f : Func) :
    blockCountF (processFunction f).1 ≤ blockCountF f := by
  have h1 := sweep_block_eq
    (markFunc (clear_basic_blocks f).1).marked (clear_basic_blocks f).1
  have h2 := clear_block_le f
  show blockCountF (sweep _ (clear_basic_blocks f).1).1 ≤ _
  omega

theorem processFunction_size_le (f : Func) :
    funcSize (processFunction f).1 ≤ funcSize f := by
  have h1 := processFunction_instr_le f
  have h2 := processFunction_block_le f
  unfold funcSize
  omega

theorem processFunction_changed_size_lt (f : Func)
    (h : (processFunction f).2.1 = true) :
    funcSize (processFunction f).1 < funcSize f := by
  have hinstr : instrCountF (processFunction f).1 =
      instrCountF (sweep (markFunc (clear_basic_blocks f).1).marked
        (clear_basic_blocks f).1).1 := rfl
  have hblock : blockCountF (processFunction f).1 =
      blockCountF (sweep (markFunc (clear_basic_blocks f).1).marked
        (clear_basic_blocks f).1).1 := rfl
  have hor : (clear_basic_blocks f).2 = true ∨
      (sweep (markFunc (clear_basic_blocks f).1).marked
        (clear_basic_blocks f).1).2.1 = true := by
    have hsplit : (processFunction f).2.1 =
        ((clear_basic_blocks f).2 ||
          (sweep (markFunc (clear_basic_blocks f).1).marked
            (clear_basic_blocks f).1).2.1) := rfl
    rw [hsplit] at h
    exact Bool.or_eq_true_iff.1 h
  have hs1 := sweep_instr_le
    (markFunc (clear_basic_blocks f).1).marked (clear_basic_blocks f).1
  have hs2 := sweep_block_eq
    (markFunc (clear_basic_blocks f).1).marked (clear_basic_blocks f).1
  have hc1 := clear_conservation f
  have hc2 := clear_block_le f
  unfold funcSize
  rcases hor with hc | hs
  · have h3 := clear_changed_block_lt f hc
    omega
  · have h3 := sweep_changed_instr_lt
      (markFunc (clear_basic_blocks f).1).marked (clear_basic_blocks f).1 hs
    omega

theorem processFunction_unchanged (f : Func)
    (h : (processFunction f).2.1 = false) :
    (processFunction f).1 = f ∧ (processFunction f).2.2 = 0 := by
  have hsplit : (processFunction f).2.1 =
      ((clear_basic_blocks f).2 ||
        (sweep (markFunc (clear_basic_blocks f).1).marked
          (clear_basic_blocks f).1).2.1) := rfl
  rw [hsplit, Bool.or_eq_false_iff] at h
  obtain ⟨h1, h2⟩ := h
  have hc := clear_unchanged f h1
  have hs := sweep_unchanged
    (markFunc (clear_basic_blocks f).1).marked (clear_basic_blocks f).1 h2
  constructor
  · show (sweep (markFunc (clear_basic_blocks f).1).marked
      (clear_basic_blocks f).1).1 = f
    rw [hs.1, hc]
  · show (sweep (markFunc (clear_basic_blocks f).1).marked
      (clear_basic_blocks f).1).2.2 = 0
    exact hs.2

theorem processFunction_conservation (f : Func) :
    instrCountF f = instrCountF (processFunction f).1 +
      (processFunction f).2.2 + prunedCountF f := by
  have h1 := clear_conservation f
  have h2 := sweep_conservation
    (markFunc (clear_basic_blocks f).1).marked (clear_basic_blocks f).1
  have hgoal1 : instrCountF (processFunction f).1 =
      instrCountF (sweep (markFunc (clear_basic_blocks f).1).marked
        (clear_basic_blocks f).1).1 := rfl
  have hgoal2 : (processFunction f).2.2 =
      (sweep (markFunc (clear_basic_blocks f).1).marked
        (clear_basic_blocks f).1).2.2 := rfl
  omega

theorem runIter_functions (m : Module) :
    (runIter m).1.functions =
      m.functions.map fun f => (processFunction f).1 := by
  show (m.functions.map processFunction).map _ = _
  rw [List.map_map]
  rfl

theorem runIter_changed_iff (m : Module) :
    (runIter m).2.1 = true ↔
      ∃ f ∈ m.functions, (processFunction f).2.1 = true := by
  show (m.functions.map processFunction).any _ = true ↔ _
  rw [List.any_eq_true]
  constructor
  · rintro ⟨r, hr, hc⟩
    obtain ⟨f, hf, hfr⟩ := List.mem_map.1 hr
    exact ⟨f, hf, hfr ▸ hc⟩
  · rintro ⟨f, hf, hc⟩
    exact ⟨processFunction f, List.mem_map_of_mem _ hf, hc⟩

theorem runIter_count (m : Module) :
    (runIter m).2.2 =
      (m.functions.map fun f => (processFunction f).2.2).sum := by
  show ((m.functions.map processFunction).map _).sum = _
  rw [List.map_map]
  rfl

theorem runIter_size_le (m : Module) :
    totalSize (runIter m).1 ≤ totalSize m := by
  unfold totalSize
  rw [runIter_functions, List.map_map]
  exact List.sum_le_sum fun f _ => processFunction_size_le f

theorem runIter_changed_size_lt (m : Module)
    (h : (runIter m).2.1 = true) :
    totalSize (runIter m).1 < totalSize m := by
  obtain ⟨f0, hf0, hc0⟩ := (runIter_changed_iff m).1 h
  unfold totalSize
  rw [runIter_functions, List.map_map]
  exact List.sum_lt_sum _ _ (fun f _ => processFunction_size_le f)
    ⟨f0, hf0, processFunction_changed_size_lt f0 hc0⟩

theorem runIter_unchanged (m : Module) (h : (runIter m).2.1 = false) :
    (runIter m).1 = m ∧ (runIter m).2.2 = 0 := by
  have hall : ∀ f ∈ m.functions, (processFunction f).2.1 = false := by
    intro f hf
    by_contra hc
    rw [Bool.not_eq_false] at hc
    rw [(runIter_changed_iff m).2 ⟨f, hf, hc⟩] at h
    cases h
  constructor
  · have hfs : (runIter m).1.functions = m.functions := by
      rw [runIter_functions]
      conv_rhs => rw [← List.map_id m.functions]
      exact List.map_congr_left fun f hf =>
        (processFunction_unchanged f (hall f hf)).1
    have : ({ m with functions := (runIter m).1.functions } : Module) =
        m := by rw [hfs]
    exact this
  · rw [runIter_count]
    refine List.sum_eq_zero fun x hx => ?_
    obtain ⟨f, hf, hfx⟩ := List.mem_map.1 hx
    exact hfx ▸ (processFunction_unchanged f (hall f hf)).2

theorem runIter_conservation (m : Module) :
    instrCountM m = instrCountM (runIter m).1 +
      (runIter m).2.2 + prunedCountM m := by
  unfold instrCountM prunedCountM
  have hmap : (m.functions.map instrCountF) =
      (m.functions.map fun f => instrCountF (processFunction f).1 +
        ((processFunction f).2.2 + prunedCountF f)) :=
    List.map_congr_left fun f _ => by
      show instrCountF f = instrCountF (processFunction f).1 +
        ((processFunction f).2.2 + prunedCountF f)
      have := processFunction_conservation f
      omega
  rw [runIter_functions, List.map_map, runIter_count, hmap,
    sum_map_add, sum_map_add]
  simp only [Function.comp_def]
  omega

/-! ## The fixed-point loop -/

theorem runLoopFuel_succ (n : Nat) (m : Module) :
    runLoopFuel (n + 1) m =
      if (runIter m).2.1 then
        ((runLoopFuel n (runIter m).1).1,
         (runIter m).2.2 + (runLoopFuel n (runIter m).1).2)
      else ((runIter m).1, (runIter m).2.2) := rfl

theorem runLoopStats_succ (n : Nat) (m : Module) :
    runLoopStats (n + 1) m =
      if (runIter m).2.1 then
        (prunedCountM m + (runLoopStats n (runIter m).1).1,
         (runLoopStats n (runIter m).1).2 + 1)
      else (prunedCountM m, 1) := rfl

theorem runLoopFuel_fix (fuel : Nat) :
    ∀ m, totalSize m < fuel →
      (runIter (runLoopFuel fuel m).1).2.1 = false := by
  induction fuel with
  | zero => intro m h; cases h
  | succ n ih =>
    intro m h
    rw [runLoopFuel_succ]
    cases hch : (runIter m).2.1 with
    | true =>
      rw [if_pos rfl]
      have hlt := runIter_changed_size_lt m hch
      exact ih (runIter m).1 (by omega)
    | false =>
      rw [if_neg (by simp)]
      show (runIter (runIter m).1).2.1 = false
      rw [(runIter_unchanged m hch).1]
      exact hch

theorem runLoopFuel_conservation (fuel : Nat) :
    ∀ m, totalSize m < fuel →
      instrCountM m = instrCountM (runLoopFuel fuel m).1 +
        (runLoopFuel fuel m).2 + (runLoopStats fuel m).1 := by
  induction fuel with
  | zero => intro m h; cases h
  | succ n ih =>
    intro m h
    have hstep := runIter_conservation m
    rw [runLoopFuel_succ, runLoopStats_succ]
    cases hch : (runIter m).2.1 with
    | true =>
      rw [if_pos rfl, if_pos rfl]
      have hlt := runIter_changed_size_lt m hch
      have hrec := ih (runIter m).1 (by omega)
      simp only []
      omega
    | false =>
      rw [if_neg (by simp), if_neg (by simp)]
      simp only []
      omega

theorem runLoopStats_iters_le (fuel : Nat) :
    ∀ m, totalSize m < fuel →
      (runLoopStats fuel m).2 ≤ totalSize m + 1 := by
  induction fuel with
  | zero => intro m h; cases h
  | succ n ih =>
    intro m h
    rw [runLoopStats_succ]
    cases hch : (runIter m).2.1 with
    | true =>
      rw [if_pos rfl]
      have hlt := runIter_changed_size_lt m hch
      have hrec := ih (runIter m).1 (by omega)
      simp only []
      omega
    | false =>
      rw [if_neg (by simp)]
      simp only []
      omega

/-! ## C5: idempotence of `run` at the fixed point -/

/-- C5: a second invocation of `run` leaves the module unchanged and
erases nothing: it returns the same module and a zero deleted count. -/
theorem run_idempotent (m : Module) :
    run ((run m).1) = ((run m).1, 0) := by
  have hfix : (runIter (run m).1).2.1 = false :=
    runLoopFuel_fix (totalSize m + 1) m (Nat.lt_succ_self _)
  have hrun : run ((run m).1) =
      runLoopFuel (totalSize (run m).1 + 1) (run m).1 := rfl
  rw [hrun, runLoopFuel_succ, if_neg (by simp [hfix])]
  obtain ⟨h1, h2⟩ := runIter_unchanged (run m).1 hfix
  rw [h1, h2]

/-! ## C6: monotone shrinking and termination of the driver loop -/

/-- C6: each outer iteration preserves the list of functions and never
increases any function's instruction or block count; an iteration that
reports a change strictly decreases the total size; and the loop runs at
most `totalSize m + 1` outer iterations. -/
theorem run_monotone_shrink (m : Module) :
    ((runIter m).1.functions.length = m.functions.length) ∧
    (∀ k : Nat, ∀ F F2 : Func, m.functions[k]? = some F →
      (runIter m).1.functions[k]? = some F2 →
      instrCountF F2 ≤ instrCountF F ∧ blockCountF F2 ≤ blockCountF F) ∧
    ((runIter m).2.1 = true → totalSize (runIter m).1 < totalSize m) ∧
    ((runLoopStats (totalSize m + 1) m).2 ≤ totalSize m + 1) := by
  refine ⟨?_, ?_, ?_, ?_⟩
  · rw [runIter_functions]
    simp
  · intro k F F2 hF hF2
    rw [runIter_functions, List.getElem?_map, hF, Option.map_some'] at hF2
    cases hF2
    exact ⟨processFunction_instr_le F, processFunction_block_le F⟩
  · exact runIter_changed_size_lt m
  · exact runLoopStats_iters_le (totalSize m + 1) m (Nat.lt_succ_self _)

/-- Witness for `run_monotone_shrink` on the example module, whose first
iteration prunes a block (a strict decrease). -/
theorem run_monotone_shrink_witness :
    (mEx.functions[0]? = some mEx.functions.headI ∧
     (runIter mEx).1.functions[0]? =
       some (runIter mEx).1.functions.headI ∧
     instrCountF (runIter mEx).1.functions.headI ≤
       instrCountF mEx.functions.headI ∧
     blockCountF (runIter mEx).1.functions.headI ≤
       blockCountF mEx.functions.headI) ∧
    ((runIter mEx).2.1 = true ∧
     totalSize (runIter mEx).1 < totalSize mEx) :=
  ⟨⟨by decide, by decide,
    ((run_monotone_shrink mEx).2.1 0 mEx.functions.headI
      (runIter mEx).1.functions.headI (by decide) (by decide)).1,
    ((run_monotone_shrink mEx).2.1 0 mEx.functions.headI
      (runIter mEx).1.functions.headI (by decide) (by decide)).2⟩,
   ⟨by decide, (run_monotone_shrink mEx).2.2.1 (by decide)⟩⟩

/-! ## C10: the reported deleted-instruction count -/

/-- C10: the count reported at the end of `run` accounts exactly for the
instructions removed by `sweep`: together with the instructions destroyed
when the pruner erased their blocks (`runLoopStats … .1`, not included in
the count) it makes up precisely the instructions that disappeared. -/
theorem run_count_exact (m : Module) :
    instrCountM m = instrCountM (run m).1 + (run m).2 +
      (runLoopStats (totalSize m + 1) m).1 :=
  runLoopFuel_conservation (totalSize m + 1) m (Nat.lt_succ_self _)

/-! ## C1: preservation of critical instructions -/

theorem sweep_critical_in_block (marked : List Nat) (f : Func)
    {bb : BasicBlock} (hbb : bb ∈ f.blocks) {i : Instruction}
    (hi : i ∈ bb.instrs) (hcrit : is_critical i = true) :
    ∃ bb2 ∈ (sweep marked f).1.blocks, bb2.id = bb.id ∧ i ∈ bb2.instrs := by
  refine ⟨sweepKeep marked bb, ?_, rfl, ?_⟩
  · exact List.mem_map_of_mem _ hbb
  · show i ∈ bb.instrs.filter _
    exact List.mem_filter.2 ⟨hi, by simp [sweepDel_critical marked i hcrit]⟩

theorem clear_mem_of_alive {f : Func} {bb : BasicBlock}
    (hbb : bb ∈ f.blocks) (hd : bbDead f bb = false) :
    bb ∈ (clear_basic_blocks f).1.blocks := by
  show bb ∈ f.blocks.filter _
  exact List.mem_filter.2 ⟨hbb, by simp [hd]⟩

theorem processFunction_blocks_src (f : Func) :
    ∀ bb2 ∈ (processFunction f).1.blocks,
      ∃ bb1 ∈ f.blocks, bb2.id = bb1.id ∧ bbDead f bb1 = false := by
  intro bb2 hbb2
  have hshape : (processFunction f).1.blocks =
      ((f.blocks.filter fun bb => !(bbDead f bb)).map
        (sweepKeep (markFunc (clear_basic_blocks f).1).marked)) := rfl
  rw [hshape] at hbb2
  obtain ⟨bb1, hbb1, hmap⟩ := List.mem_map.1 hbb2
  obtain ⟨hmem, hkeep⟩ := List.mem_filter.1 hbb1
  refine ⟨bb1, hmem, ?_, by simpa using hkeep⟩
  rw [← hmap]
  rfl

theorem processFunction_absent (f : Func) (x : Nat)
    (h : ∀ bb ∈ f.blocks, bb.id ≠ x) :
    ∀ bb2 ∈ (processFunction f).1.blocks, bb2.id ≠ x := by
  intro bb2 hbb2
  obtain ⟨bb1, hbb1, hid, _⟩ := processFunction_blocks_src f bb2 hbb2
  rw [hid]
  exact h bb1 hbb1

theorem processFunction_uniqueBlockIds (f : Func)
    (h : uniqueBlockIds f) : uniqueBlockIds (processFunction f).1 := by
  unfold uniqueBlockIds at h ⊢
  have hshape : (processFunction f).1.blocks =
      ((f.blocks.filter fun bb => !(bbDead f bb)).map
        (sweepKeep (markFunc (clear_basic_blocks f).1).marked)) := rfl
  rw [hshape, List.map_map]
  have hids : ((f.blocks.filter fun bb => !(bbDead f bb)).map
      (BasicBlock.id ∘ sweepKeep (markFunc (clear_basic_blocks f).1).marked))
      = (f.blocks.filter fun bb => !(bbDead f bb)).map BasicBlock.id :=
    List.map_congr_left fun bb _ => rfl
  rw [hids]
  exact List.Nodup.sublist
    (List.Sublist.map BasicBlock.id (List.filter_sublist f.blocks)) h

theorem processFunction_critical (f : Func) (hwf : uniqueBlockIds f)
    {bb : BasicBlock} (hbb : bb ∈ f.blocks) {i : Instruction}
    (hi : i ∈ bb.instrs) (hcrit : is_critical i = true) :
    (∃ bb2 ∈ (processFunction f).1.blocks,
      bb2.id = bb.id ∧ i ∈ bb2.instrs) ∨
    (∀ bb2 ∈ (processFunction f).1.blocks, bb2.id ≠ bb.id) := by
  cases hd : bbDead f bb with
  | false =>
    left
    have hbb1 : bb ∈ (clear_basic_blocks f).1.blocks :=
      clear_mem_of_alive hbb hd
    exact sweep_critical_in_block
      (markFunc (clear_basic_blocks f).1).marked
      (clear_basic_blocks f).1 hbb1 hi hcrit
  | true =>
    right
    intro bb2 hbb2
    obtain ⟨bb1, hbb1, hid, halive⟩ := processFunction_blocks_src f bb2 hbb2
    rw [hid]
    intro hcontra
    have : bb1 = bb := List.inj_on_of_nodup_map hwf hbb1 hbb hcontra
    rw [this, hd] at halive
    cases halive

theorem runIter_getElem (m : Module) (k : Nat) :
    (runIter m).1.functions[k]? =
      (m.functions[k]?).map fun F => (processFunction F).1 := by
  rw [runIter_functions, List.getElem?_map]

theorem runLoopFuel_absent (fuel : Nat) :
    ∀ (m : Module) (k : Nat) (F : Func) (x : Nat), m.functions[k]? = some F →
      (∀ bb ∈ F.blocks, bb.id ≠ x) →
      ∃ F2 : Func, (runLoopFuel fuel m).1.functions[k]? = some F2 ∧
        ∀ bb2 ∈ F2.blocks, bb2.id ≠ x := by
  induction fuel with
  | zero =>
    intro m k F x hF habs
    exact ⟨F, hF, habs⟩
  | succ n ih =>
    intro m k F x hF habs
    rw [runLoopFuel_succ]
    have hstep : (runIter m).1.functions[k]? =
        some (processFunction F).1 := by
      rw [runIter_getElem, hF, Option.map_some']
    cases hch : (runIter m).2.1 with
    | true =>
      rw [if_pos rfl]
      exact ih (runIter m).1 k (processFunction F).1 x hstep
        (processFunction_absent F x habs)
    | false =>
      rw [if_neg (by simp)]
      exact ⟨(processFunction F).1, hstep,
        processFunction_absent F x habs⟩

theorem runLoopFuel_critical (fuel : Nat) :
    ∀ (m : Module) (k : Nat) (F : Func), m.functions[k]? = some F → uniqueBlockIds F →
      ∀ bb ∈ F.blocks, ∀ i ∈ bb.instrs, is_critical i = true →
      ∃ F2 : Func, (runLoopFuel fuel m).1.functions[k]? = some F2 ∧
        ((∃ bb2 ∈ F2.blocks, bb2.id = bb.id ∧ i ∈ bb2.instrs) ∨
         (∀ bb2 ∈ F2.blocks, bb2.id ≠ bb.id)) := by
  induction fuel with
  | zero =>
    intro m k F hF _ bb hbb i hi _
    exact ⟨F, hF, Or.inl ⟨bb, hbb, rfl, hi⟩⟩
  | succ n ih =>
    intro m k F hF hwf bb hbb i hi hcrit
    rw [runLoopFuel_succ]
    have hstep : (runIter m).1.functions[k]? =
        some (processFunction F).1 := by
      rw [runIter_getElem, hF, Option.map_some']
    have hwf2 := processFunction_uniqueBlockIds F hwf
    cases hch : (runIter m).2.1 with
    | true =>
      rw [if_pos rfl]
      rcases processFunction_critical F hwf hbb hi hcrit with
        ⟨bb1, hbb1, hid1, hi1⟩ | habs
      · obtain ⟨F2, hF2, hdisj⟩ := ih (runIter m).1 k (processFunction F).1
          hstep hwf2 bb1 hbb1 i hi1 hcrit
        refine ⟨F2, hF2, ?_⟩
        rcases hdisj with ⟨bb2, hbb2, hid2, hi2⟩ | habs2
        · exact Or.inl ⟨bb2, hbb2, hid2.trans hid1, hi2⟩
        · exact Or.inr fun bb2 h => (hid1 ▸ habs2 bb2 h)
      · obtain ⟨F2, hF2, habs2⟩ := runLoopFuel_absent n (runIter m).1 k
          (processFunction F).1 bb.id hstep habs
        exact ⟨F2, hF2, Or.inr habs2⟩
    | false =>
      rw [if_neg (by simp)]
      exact ⟨(processFunction F).1, hstep,
        processFunction_critical F hwf hbb hi hcrit⟩

/-- C1 counterexample: the example module contains a store instruction
(critical) inside an unreachable block, and after `run` no store
instruction remains anywhere — the pruner destroyed it with its block, so
critical instructions inside pruned blocks are not preserved. -/
theorem critical_not_always_preserved :
    (∃ F ∈ mEx.functions, ∃ bb ∈ F.blocks, ∃ i ∈ bb.instrs,
      is_critical i = true ∧ i.kind = .store) ∧
    (∀ F ∈ (run mEx).1.functions, ∀ bb ∈ F.blocks, ∀ i ∈ bb.instrs,
      i.kind ≠ .store) := by decide

/-- C1 (amended): a store, return, call, branch, phi, alloca or load
instruction present before the pass is still present after the pass in a
block with the same id, unless the unreachable-block pruner removed its
containing basic block (in which case the block id no longer occurs in
the function); `sweep` itself never deletes a critical instruction. -/
theorem critical_preserved_or_block_pruned (m : Module) (k : Nat)
    (F : Func) (hF : m.functions[k]? = some F) (hwf : uniqueBlockIds F)
    (bb : BasicBlock) (hbb : bb ∈ F.blocks) (i : Instruction)
    (hi : i ∈ bb.instrs) (hcrit : is_critical i = true) :
    ∃ F2 : Func, (run m).1.functions[k]? = some F2 ∧
      ((∃ bb2 ∈ F2.blocks, bb2.id = bb.id ∧ i ∈ bb2.instrs) ∨
       (∀ bb2 ∈ F2.blocks, bb2.id ≠ bb.id)) :=
  runLoopFuel_critical (totalSize m + 1) m k F hF hwf bb hbb i hi hcrit

/-- Witness for `critical_preserved_or_block_pruned`: the return
instruction in `main`'s entry block of the example module. -/
theorem critical_preserved_or_block_pruned_witness :
    (mEx.functions[0]? = some mEx.functions.headI ∧
     uniqueBlockIds mEx.functions.headI ∧
     mEx.functions.headI.blocks.headI ∈ mEx.functions.headI.blocks ∧
     mEx.functions.headI.blocks.headI.instrs.headI ∈
       mEx.functions.headI.blocks.headI.instrs ∧
     is_critical mEx.functions.headI.blocks.headI.instrs.headI = true) ∧
    (∃ F2 : Func, (run mEx).1.functions[0]? = some F2 ∧
      ((∃ bb2 ∈ F2.blocks,
        bb2.id = mEx.functions.headI.blocks.headI.id ∧
        mEx.functions.headI.blocks.headI.instrs.headI ∈ bb2.instrs) ∨
       (∀ bb2 ∈ F2.blocks,
        bb2.id ≠ mEx.functions.headI.blocks.headI.id))) :=
  ⟨⟨by decide, by decide, by decide, by decide, by decide⟩,
   critical_preserved_or_block_pruned mEx 0 mEx.functions.headI
     (by decide) (by decide) mEx.functions.headI.blocks.headI (by decide)
     mEx.functions.headI.blocks.headI.instrs.headI (by decide) (by decide)⟩

end DeadCode
